import Mathlib

/-!
Verification of the event-log analysis engine of `processmining_app_v1.py`.

The Python source operates on a pandas DataFrame with columns `case_id`,
`activity`, `timestamp`.  We embed the DataFrame as a `List` of records, a
timestamp instant as an `Int` (seconds since an epoch), and durations in
minutes as `ℚ` (seconds divided by 60).  A pandas missing value (None/NaN/NaT)
is embedded as `Option.none`; a pandas column of cells is a `List` of the
cell type.  Fallible pandas operations (`pd.to_datetime` with `errors="raise"`)
are embedded with `Except`.

Pandas semantics used by the embedding (each noted again at its definition):
* `pd.to_datetime` maps None/NaN and the empty string to `NaT`, parses
  well-formed strings to instants, and raises on any unparseable string.
* `DataFrame.isnull` is `True` exactly on None/NaN/NaT; the empty string is
  not null.
* `df[col] = ...` mutates the caller's DataFrame object in place.
* `df.sort_values(by=[k1, k2])` is a stable lexicographic sort (numpy
  `lexsort`), i.e. it orders rows by `(k1, k2, original position)`.
* `df.groupby(k)` with default `sort=True` lists group keys in ascending
  order and keeps each group's rows in their current order.
* `groupby(k)[c].diff()` subtracts, within each group, the previous row's
  value in the frame's *current row order*; the first row of a group gets NaN.
* `groupby(k)[c].mean()` skips NaN values; a group whose values are all NaN
  is kept in the result with a NaN mean.
* `Series.value_counts()` lists the distinct values with their
  multiplicities sorted descending by count.  The order among *equal* counts
  comes from numpy's default quicksort `argsort`, which is not stable, so the
  source does not determine it; the model resolves that tie order by an
  arbitrary concrete choice (first-occurrence order) and no theorem relies
  on it.
* `SeriesGroupBy.transform(f)` wraps each per-group result `res` in
  `Series(res, index=group.index)`: a tuple of the same length as the group
  is aligned element-wise, not broadcast as a scalar.
* Comparing an object-dtype `Series` with a tuple (`series != tup`) compares
  the tuple as a *scalar* against every element (pandas deliberately does not
  treat tuples as list-like in comparisons).
-/

namespace ProcessMining

/-! ### Raw records and validation (`validate_data`, source lines 30–40) -/

/-- A raw cell of the `timestamp` column, as `pd.to_datetime` distinguishes
inputs: a missing value (None/NaN), the empty string, a parseable date-time
string denoting the instant `t`, or an unparseable string `s`. -/
inductive RawTS
  | null
  | empty
  | valid (t : Int)
  | invalid (s : String)
deriving DecidableEq

/-- A raw input row: each of the three required columns may hold a missing
value (`none`).  `case_id` and `activity` are free-form strings, possibly
empty. -/
structure RawRecord where
  case_id : Option String
  activity : Option String
  timestamp : RawTS
deriving DecidableEq

/-- A row after `df['timestamp'] = pd.to_datetime(df['timestamp'])`:
the timestamp cell is an instant or `NaT` (`none`). -/
structure ConvRecord where
  case_id : Option String
  activity : Option String
  timestamp : Option Int
deriving DecidableEq

/-- `pd.to_datetime` on one cell: None/NaN ↦ NaT, `""` ↦ NaT, a parseable
string ↦ its instant, an unparseable string ↦ raise. -/
def to_datetime_cell : RawTS → Except String (Option Int)
  | .null => .ok none
  | .empty => .ok none
  | .valid t => .ok (some t)
  | .invalid s => .error s

/-- `pd.to_datetime` on the whole `timestamp` column: raises iff some cell is
unparseable, otherwise converts every cell. -/
def to_datetime_col : List RawRecord → Except String (List ConvRecord)
  | [] => .ok []
  | r :: rs =>
    match to_datetime_cell r.timestamp with
    | .error s => .error s
    | .ok t =>
      match to_datetime_col rs with
      | .error s => .error s
      | .ok rest => .ok ({ case_id := r.case_id, activity := r.activity, timestamp := t } :: rest)

/-- The instant a convertible timestamp cell normalizes to (`NaT` for the
null-like cells). -/
def tsNorm : RawTS → Option Int
  | .valid t => some t
  | _ => none

/-- The successful conversion of one row (timestamps normalized, other
columns untouched). -/
def convRecord (r : RawRecord) : ConvRecord :=
  { case_id := r.case_id
    activity := r.activity
    timestamp := tsNorm r.timestamp }

/-- The two validation failures of `validate_data`: the `ValueError`
raised when `pd.to_datetime` fails, and the `ValueError` for missing values
in the required columns. -/
inductive VError
  | timestampParse (msg : String)
  | missingField
deriving DecidableEq

/-- The null test of `df[['activity', 'case_id', 'timestamp']].isnull()` on
one converted row: `isnull` is true exactly on None/NaN/NaT; an empty string
is not null. -/
def hasNullField (r : ConvRecord) : Bool :=
  r.activity.isNone || r.case_id.isNone || r.timestamp.isNone

/-- `validate_data` (lines 30–40): first converts the timestamp column,
raising a timestamp error if that fails, then raises a missing-field error if
any required cell of the converted frame is null, and otherwise returns the
converted frame (same rows, same order). -/
def validate_data (df : List RawRecord) : Except VError (List ConvRecord) :=
  match to_datetime_col df with
  | .error msg => .error (.timestampParse msg)
  | .ok conv =>
    if conv.any hasNullField then .error .missingField
    else .ok conv

/-- The state of the DataFrame object passed to `validate_data`, observed
after the call returns or raises: still the raw frame, or mutated in place by
the column assignment `df['timestamp'] = pd.to_datetime(df['timestamp'])`. -/
inductive DFState
  | raw (df : List RawRecord)
  | converted (df : List ConvRecord)
deriving DecidableEq

/-- The input DataFrame after `validate_data` runs: the in-place column
assignment on line 33 happens exactly when the conversion succeeds (when
`pd.to_datetime` raises, the assignment never executes; when the missing-field
check raises on line 38, the assignment has already mutated the input). -/
def validate_data_inputAfter (df : List RawRecord) : DFState :=
  match to_datetime_col df with
  | .error _ => .raw df
  | .ok conv => .converted conv

/-! ### The validated event log -/

/-- One row of a validated log: all three fields present, the timestamp an
instant (seconds since an epoch). -/
structure Event where
  case_id : String
  activity : String
  timestamp : Int
deriving DecidableEq

/-- Distinct values of a list in order of first occurrence (the order in
which a pandas hash table lists the uniques of a column). -/
def uniqFirst {α : Type _} [DecidableEq α] : List α → List α
  | [] => []
  | a :: l => a :: (uniqFirst l).filter (fun b => decide (b ≠ a))

/-- Strict lexicographic comparison of character lists by code point — the
order in which Python (and hence pandas sorting and sorted group keys)
compares strings. -/
def charsLt : List Char → List Char → Bool
  | [], [] => false
  | [], _ :: _ => true
  | _ :: _, [] => false
  | a :: as, b :: bs =>
    if a.toNat < b.toNat then true
    else if b.toNat < a.toNat then false
    else charsLt as bs

/-- Strict string order by code point. -/
def strLt (a b : String) : Prop :=
  charsLt a.data b.data = true

/-- Non-strict string order by code point. -/
def strLE (a b : String) : Prop :=
  charsLt b.data a.data = false

instance : DecidableRel strLt :=
  fun a b => by unfold strLt; infer_instance

instance : DecidableRel strLE :=
  fun a b => by unfold strLE; infer_instance

/-! ### Bottleneck analysis (`detect_bottlenecks`, source lines 103–108)

The source computes `df.groupby('case_id')['timestamp'].diff()` on the frame
*as validated*, without sorting it by timestamp: the difference taken at a row
is against the previous row of the same case in the original row order. -/

/-- The value `groupby('case_id')['timestamp'].diff()` assigns to row `e`
when the rows before it (in the frame's current order) are `pre`: the
difference to the last earlier row of the same case, NaN (`none`) if there is
no such row. -/
def diffRow (pre : List Event) (e : Event) : Option Int :=
  match (pre.filter (fun f => decide (f.case_id = e.case_id))).getLast? with
  | none => none
  | some f => some (e.timestamp - f.timestamp)

/-- The `time_diff` column (in seconds) for the rows `l`, given the rows
`pre` already above them in the frame. -/
def diffCol (pre : List Event) : List Event → List (Option Int)
  | [] => []
  | e :: rest => diffRow pre e :: diffCol (pre ++ [e]) rest

/-- The whole `time_diff` column of line 104. -/
def time_diff_col (log : List Event) : List (Option Int) :=
  diffCol [] log

/-- Seconds to minutes, line 105: `df['time_diff'] / 60`. -/
def toMinutes (secs : Int) : ℚ :=
  (secs : ℚ) / 60

/-- The non-NaN entries of `time_diff_minutes` on rows whose activity is `a`:
exactly the values `groupby('activity')['time_diff_minutes'].mean()` averages
for the key `a` (pandas `mean` skips NaN). -/
def gapsOf (log : List Event) (a : String) : List ℚ :=
  ((log.zip (time_diff_col log)).filter (fun p => decide (p.1.activity = a))).filterMap
    (fun p => p.2.map toMinutes)

/-- Mean of a list of values, NaN (`none`) when the list is empty — a
groupby mean over a group whose values are all NaN. -/
def meanOpt (l : List ℚ) : Option ℚ :=
  if l = [] then none else some (l.sum / l.length)

/-- Distinct group keys in ascending order, as `groupby` (with its default
`sort=True`) lists them. -/
def sortedKeys (l : List String) : List String :=
  List.insertionSort strLE (uniqFirst l)

/-- `detect_bottlenecks` core (lines 103–106): the `avg_times` table, one row
per distinct activity (ascending), with the mean of that activity's non-NaN
`time_diff_minutes` values — NaN (`none`) when all its values are NaN. -/
def detect_bottlenecks (log : List Event) : List (String × Option ℚ) :=
  (sortedKeys (log.map (fun e => e.activity))).map (fun a => (a, meanOpt (gapsOf log a)))

/-! ### Loop detection (`detect_loops`, source lines 121–131) -/

/-- Number of rows of case `c` with activity `a`:
one cell of `df.groupby(['case_id', 'activity']).size()`. -/
def countPair (log : List Event) (c a : String) : Nat :=
  (log.filter (fun e => decide (e.case_id = c) && decide (e.activity = a))).length

/-- Lexicographic order on the `(case_id, activity)` key pairs. -/
def pairLE (p q : String × String) : Prop :=
  strLt p.1 q.1 ∨ (p.1 = q.1 ∧ strLE p.2 q.2)

instance : DecidableRel pairLE :=
  fun p q => by unfold pairLE; infer_instance

/-- The distinct `(case_id, activity)` keys of
`df.groupby(['case_id', 'activity']).size()`, in ascending order. -/
def pairKeys (log : List Event) : List (String × String) :=
  List.insertionSort pairLE (uniqFirst (log.map (fun e => (e.case_id, e.activity))))

/-- `loop_counts` after line 123: the keys whose size exceeds 1. -/
def loopPairs (log : List Event) : List (String × String) :=
  (pairKeys log).filter (fun p => decide (countPair log p.1 p.2 > 1))

/-- `detect_loops` core (lines 121–131): for each case appearing in
`loop_counts`, the distinct activities that repeat within it. -/
def detect_loops (log : List Event) : List (String × List String) :=
  (uniqFirst ((loopPairs log).map (fun p => p.1))).map
    (fun c => (c, ((loopPairs log).filter (fun p => decide (p.1 = c))).map (fun p => p.2)))

/-! ### Sequence extraction and variants (`analyze_variants`, lines 144–152)

`df.sort_values(by=['case_id', 'timestamp'])` is a stable lexicographic sort:
it orders the rows by `(case_id, timestamp, original position)`.  We tag each
row with its original position (`List.enum`) so that this key is a strict
total order, which pins the sorted frame down uniquely. -/

/-- Row order of the sorted frame: by case id, then timestamp, then original
position (the last component expressing stability). -/
def rowLE (p q : Nat × Event) : Prop :=
  strLt p.2.case_id q.2.case_id ∨ (p.2.case_id = q.2.case_id ∧
    (p.2.timestamp < q.2.timestamp ∨ (p.2.timestamp = q.2.timestamp ∧ p.1 ≤ q.1)))

instance : DecidableRel rowLE :=
  fun p q => by unfold rowLE; infer_instance

/-- The frame after line 144, rows tagged with their original positions. -/
def sortedLog (log : List Event) : List (Nat × Event) :=
  List.insertionSort rowLE log.enum

/-- Timestamp order on events, reflexive only on equal events — the relation
whose sorted lists are unique among permutations of an event multiset with
pairwise distinct timestamps. -/
def tsOrd (e f : Event) : Prop :=
  e.timestamp < f.timestamp ∨ e = f

/-- The rows of case `c` in the sorted frame — the group that
`groupby('case_id')` hands to `apply(tuple)`. -/
def caseEventsIdx (log : List Event) (c : String) : List (Nat × Event) :=
  (sortedLog log).filter (fun p => decide (p.2.case_id = c))

/-- The extracted activity sequence of case `c`: its events sorted by
timestamp (ties by original row order), activities read off in that order. -/
def caseSeq (log : List Event) (c : String) : List String :=
  (caseEventsIdx log c).map (fun p => p.2.activity)

/-- The distinct case ids in ascending order — the index of the series
`df.groupby('case_id')['activity'].apply(tuple)`. -/
def case_ids_sorted (log : List Event) : List String :=
  List.insertionSort strLE (uniqFirst (log.map (fun e => e.case_id)))

/-- `variant_series` of line 145: one sequence per case, cases in ascending
case-id order. -/
def variantsOf (log : List Event) : List (List String) :=
  (case_ids_sorted log).map (fun c => caseSeq log c)

/-- Order used by the model for the rows of `value_counts`: descending
count, and — for equal counts — an arbitrary concrete tie order (first
occurrence, carried in the first component).  Pandas sorts the counts with
numpy's default quicksort `argsort`, which is not stable, so the source does
not determine the order among equal counts; only the descending-count part
of this relation reflects the program. -/
def vcLE (a b : Nat × (List String × Nat)) : Prop :=
  b.2.2 < a.2.2 ∨ (a.2.2 = b.2.2 ∧ a.1 ≤ b.1)

instance : DecidableRel vcLE :=
  fun a b => by unfold vcLE; infer_instance

instance : IsTotal (Nat × (List String × Nat)) vcLE :=
  ⟨by intro a b; unfold vcLE; omega⟩

instance : IsTrans (Nat × (List String × Nat)) vcLE :=
  ⟨by intro a b c; unfold vcLE; omega⟩

/-- The distinct values of the series with their first-occurrence positions
and multiplicities — the unsorted content of `value_counts`. -/
def vcTriples (l : List (List String)) : List (Nat × (List String × Nat)) :=
  (uniqFirst l).enum.map (fun p => (p.1, (p.2, l.count p.2)))

/-- `Series.value_counts()` of line 146: distinct values with their counts,
sorted descending by count.  The order among equal counts is unspecified by
the source (numpy's default unstable `argsort`); the model picks one
admissible resolution of it. -/
def value_counts (l : List (List String)) : List (List String × Nat) :=
  (List.insertionSort vcLE (vcTriples l)).map (fun t => t.2)

/-- `analyze_variants` core (lines 144–152): the `variant_counts` table
truncated to its first 10 rows by `head(10)`. -/
def analyze_variants (log : List Event) : List (List String × Nat) :=
  (value_counts (variantsOf log)).take 10

/-! ### Compliance analysis (`compliance_analysis`, source lines 169–177) -/

/-- A Python value held in the object-dtype `process_sequence` column or
compared against it: a string or a tuple of strings. -/
inductive PyVal
  | str (s : String)
  | tup (l : List String)
deriving DecidableEq

/-- The reference sequence hard-coded on line 169. -/
def expected_sequence : List String :=
  ["Start", "Review", "Approve", "End"]

/-- The `process_sequence` column of line 170,
`df.groupby('case_id')['activity'].transform(lambda x: tuple(x))`:
pandas wraps each per-group result in `Series(res, index=group.index)`, and a
tuple — being list-like of exactly the group's length — is aligned
element-wise rather than broadcast as one scalar, so every row receives its
own activity back as a string. -/
def process_sequence_col (log : List Event) : List PyVal :=
  log.map (fun e => PyVal.str e.activity)

/-- `compliance_issues` of line 171: the rows whose `process_sequence` cell
differs from the expected tuple.  The comparison
`df['process_sequence'] != expected_sequence` treats the tuple as a scalar
and compares it against each cell. -/
def compliance_issues (log : List Event) : List (Event × PyVal) :=
  (log.zip (process_sequence_col log)).filter
    (fun p => decide (p.2 ≠ PyVal.tup expected_sequence))

/-- `compliance_analysis` core (lines 169–177): the reported number of
distinct non-compliant case ids, and the deduplicated
`(case_id, process_sequence)` report rows. -/
def compliance_analysis (log : List Event) : Nat × List (String × PyVal) :=
  ((uniqFirst ((compliance_issues log).map (fun p => p.1.case_id))).length,
    uniqFirst ((compliance_issues log).map (fun p => (p.1.case_id, p.2))))

deriving instance DecidableEq for Except

/-! ### Theorems -/

/-- C1: the claim says `computeBottlenecks` first stable-sorts each case's
events by timestamp.  The code does not sort (unlike `detect_loops` and
`analyze_variants`, `detect_bottlenecks` never calls `sort_values`): it
differences consecutive rows of a case in the original row order.  At the
failing input — case `c1` given as `B` at `t = 600 s` followed by `A` at
`t = 0 s` — the code attributes a gap of `−10` minutes to `A` and none to
`B`, whereas the claim (sorting by timestamp first) attributes `10` minutes
to `B` and none to `A`, never a negative "time spent". -/
theorem detect_bottlenecks_unsorted_bug :
    detect_bottlenecks [⟨"c1", "B", 600⟩, ⟨"c1", "A", 0⟩] =
      [("A", some (-10)), ("B", none)] := by
  simp +decide [detect_bottlenecks, sortedKeys, uniqFirst, strLE, charsLt, gapsOf,
    time_diff_col, diffCol, diffRow, toMinutes, meanOpt, List.insertionSort,
    List.orderedInsert]
  norm_num

/-- C3: the claim says `checkCompliance` flags exactly the cases whose
extracted sequence differs from the expected sequence.  At the failing input
— a single case `c1` whose extracted sequence is exactly the expected
`(Start, Review, Approve, End)` — the code still reports one non-compliant
case: the `transform(lambda x: tuple(x))` on line 170 aligns the tuple
element-wise, so every `process_sequence` cell is a single activity string,
and a string never equals the expected tuple. -/
theorem compliance_analysis_flags_compliant_case :
    caseSeq [⟨"c1", "Start", 0⟩, ⟨"c1", "Review", 60⟩,
        ⟨"c1", "Approve", 120⟩, ⟨"c1", "End", 180⟩] "c1" = expected_sequence ∧
    (compliance_analysis [⟨"c1", "Start", 0⟩, ⟨"c1", "Review", 60⟩,
        ⟨"c1", "Approve", 120⟩, ⟨"c1", "End", 180⟩]).1 = 1 := by
  decide

/-- C9: on the empty validated log every analyzer evaluates — each is a total
function of the log — and returns an empty result: no bottleneck rows, no
loop report, no variants, no compliance issues and a zero non-compliant
count. -/
theorem analyzers_on_empty_log :
    detect_bottlenecks [] = [] ∧ detect_loops [] = [] ∧
    analyze_variants [] = [] ∧ compliance_issues [] = [] ∧
    compliance_analysis [] = (0, []) := by
  decide

/-- C2 counterexample: a record whose `case_id` is the empty string (with the
other fields well-formed) is accepted by `validate_data`, not rejected with
the missing-field error — `isnull` is false on the empty string — refuting
the claim that any empty required field fails validation. -/
theorem validate_data_accepts_empty_case_id :
    validate_data [⟨some "", some "A", .valid 0⟩] =
        .ok [⟨some "", some "A", some 0⟩] ∧
    validate_data [⟨some "", some "A", .valid 0⟩] ≠ .error .missingField := by
  decide

/-- C6 counterexample: in the log with the single case `c1` = (`A` at
`t = 0`, `B` at `t = 600 s`), the activity `A` is always first in its case,
yet it is not omitted from the bottleneck result: it appears as a key whose
mean is NaN (`none`), because `groupby('activity').mean()` keeps a group all
of whose values are NaN. -/
theorem detect_bottlenecks_keeps_first_activity :
    detect_bottlenecks [⟨"c1", "A", 0⟩, ⟨"c1", "B", 600⟩] =
        [("A", none), ("B", some 10)] ∧
    ("A", (none : Option ℚ)) ∈ detect_bottlenecks [⟨"c1", "A", 0⟩, ⟨"c1", "B", 600⟩] := by
  constructor
  · simp +decide [detect_bottlenecks, sortedKeys, uniqFirst, strLE, charsLt, gapsOf,
      time_diff_col, diffCol, diffRow, toMinutes, meanOpt, List.insertionSort,
      List.orderedInsert]
    norm_num
  · simp +decide [detect_bottlenecks, sortedKeys, uniqFirst, strLE, charsLt, gapsOf,
      time_diff_col, diffCol, diffRow, toMinutes, meanOpt, List.insertionSort,
      List.orderedInsert]

/-- C8 counterexample: `validate_data` is not pure — on a well-formed input
the in-place assignment `df['timestamp'] = pd.to_datetime(df['timestamp'])`
leaves the caller's record set changed (its timestamp column converted), so
the input after the call differs from the raw input. -/
theorem validate_data_mutates_input :
    validate_data_inputAfter [⟨some "c", some "A", .valid 5⟩] =
        DFState.converted [⟨some "c", some "A", some 5⟩] ∧
    validate_data_inputAfter [⟨some "c", some "A", .valid 5⟩] ≠
        DFState.raw [⟨some "c", some "A", .valid 5⟩] := by
  decide

/-! ### Validation lemmas -/

theorem to_datetime_cell_ok_eq {ts : RawTS} {t : Option Int}
    (h : to_datetime_cell ts = .ok t) : t = tsNorm ts := by
  cases ts <;> simp_all [to_datetime_cell, tsNorm]

theorem to_datetime_col_ok (df : List RawRecord)
    (h : ∀ r ∈ df, ∀ s, r.timestamp ≠ RawTS.invalid s) :
    to_datetime_col df = .ok (df.map convRecord) := by
  induction df with
  | nil => rfl
  | cons r rs ih =>
    have hcell : to_datetime_cell r.timestamp = .ok (tsNorm r.timestamp) := by
      have hr := h r (by simp)
      cases hts : r.timestamp <;> simp [to_datetime_cell, tsNorm]
      exact hr _ hts
    have hrest := ih (fun e he s => h e (by simp [he]) s)
    simp [to_datetime_col, hcell, hrest, convRecord]

theorem to_datetime_col_err (df : List RawRecord)
    (h : ∃ r ∈ df, ∃ s, r.timestamp = RawTS.invalid s) :
    ∃ msg, to_datetime_col df = .error msg := by
  induction df with
  | nil => simp at h
  | cons r rs ih =>
    rcases h with ⟨e, he, s, hs⟩
    rcases List.mem_cons.mp he with rfl | he2
    · exact ⟨s, by simp [to_datetime_col, hs, to_datetime_cell]⟩
    · cases hcell : to_datetime_cell r.timestamp with
      | error m => exact ⟨m, by simp [to_datetime_col, hcell]⟩
      | ok t =>
        rcases ih ⟨e, he2, s, hs⟩ with ⟨m, hm⟩
        exact ⟨m, by simp [to_datetime_col, hcell, hm]⟩

theorem to_datetime_col_ok_eq {df : List RawRecord} {conv : List ConvRecord}
    (h : to_datetime_col df = .ok conv) : conv = df.map convRecord := by
  induction df generalizing conv with
  | nil =>
    simp only [to_datetime_col] at h
    cases h
    rfl
  | cons r rs ih =>
    cases hcell : to_datetime_cell r.timestamp with
    | error m => simp [to_datetime_col, hcell] at h
    | ok t =>
      cases hrest : to_datetime_col rs with
      | error m => simp [to_datetime_col, hcell, hrest] at h
      | ok rest =>
        simp only [to_datetime_col, hcell, hrest] at h
        cases h
        simp [ih hrest, convRecord, to_datetime_cell_ok_eq hcell]

/-- C2 (amended): validation rejects *null* fields, not empty strings.  If
every timestamp is convertible and some record has a null `case_id`, a null
`activity`, or a null-like timestamp cell (None/NaN or the empty string, both
of which `pd.to_datetime` turns into NaT), `validate_data` fails with the
missing-field error; if some timestamp cell is an unparseable string, it
fails with the timestamp-parse error; and on every well-formed record set
(all three fields present — `case_id` and `activity` non-empty — and all
timestamps parseable) it succeeds and returns the same rows in the same
order, nothing deduplicated, with the timestamp column normalized to
instants. -/
theorem validate_data_spec (df : List RawRecord) :
    ((∀ r ∈ df, ∀ s, r.timestamp ≠ RawTS.invalid s) →
      (∃ r ∈ df, r.case_id = none ∨ r.activity = none ∨
        r.timestamp = RawTS.null ∨ r.timestamp = RawTS.empty) →
      validate_data df = .error .missingField) ∧
    ((∃ r ∈ df, ∃ s, r.timestamp = RawTS.invalid s) →
      ∃ msg, validate_data df = .error (.timestampParse msg)) ∧
    ((∀ r ∈ df, (∃ s, r.case_id = some s ∧ s ≠ "") ∧
        (∃ s, r.activity = some s ∧ s ≠ "") ∧ (∃ t, r.timestamp = RawTS.valid t)) →
      validate_data df = .ok (df.map convRecord)) := by
  refine ⟨fun h1 h2 => ?_, fun h => ?_, fun h => ?_⟩
  · have hcol := to_datetime_col_ok df h1
    have hany : (df.map convRecord).any hasNullField = true := by
      rcases h2 with ⟨r, hr, hcase⟩
      refine List.any_eq_true.mpr ⟨convRecord r, List.mem_map_of_mem _ hr, ?_⟩
      rcases hcase with h | h | h | h <;> simp [hasNullField, convRecord, tsNorm, h]
    simp [validate_data, hcol, hany]
  · rcases to_datetime_col_err df h with ⟨m, hm⟩
    exact ⟨m, by simp [validate_data, hm]⟩
  · have hcol : to_datetime_col df = .ok (df.map convRecord) := by
      refine to_datetime_col_ok df fun r hr s hs => ?_
      rcases (h r hr).2.2 with ⟨t, ht⟩
      rw [ht] at hs
      cases hs
    have hany : (df.map convRecord).any hasNullField = false := by
      rw [List.any_eq_false]
      intro x hx
      rcases List.mem_map.mp hx with ⟨r, hr, rfl⟩
      rcases h r hr with ⟨⟨s1, hs1, -⟩, ⟨s2, hs2, -⟩, ⟨t, ht⟩⟩
      simp [hasNullField, convRecord, tsNorm, hs1, hs2, ht]
    simp [validate_data, hcol, hany]

/-- Witness for C2: a null `case_id` is rejected as a missing field, an
unparseable timestamp as a parse error, and a well-formed one-row set is
returned unchanged with its timestamp normalized. -/
theorem validate_data_spec_witness :
    validate_data [⟨none, some "A", RawTS.valid 0⟩] = .error .missingField ∧
    (∃ msg, validate_data [⟨some "c", some "A", RawTS.invalid "zz"⟩] =
      .error (.timestampParse msg)) ∧
    validate_data [⟨some "c", some "A", RawTS.valid 3⟩] =
      .ok [⟨some "c", some "A", some 3⟩] := by
  refine ⟨(validate_data_spec _).1 ?_ ?_, (validate_data_spec _).2.1 ?_, ?_⟩
  · intro r hr s
    rcases List.mem_singleton.mp hr with rfl
    exact fun h => RawTS.noConfusion h
  · exact ⟨⟨none, some "A", RawTS.valid 0⟩, by simp, Or.inl rfl⟩
  · exact ⟨⟨some "c", some "A", RawTS.invalid "zz"⟩, by simp, "zz", rfl⟩
  · refine ((validate_data_spec _).2.2 ?_).trans (by decide)
    intro r hr
    rcases List.mem_singleton.mp hr with rfl
    exact ⟨⟨"c", rfl, by decide⟩, ⟨"A", rfl, by decide⟩, ⟨3, rfl⟩⟩

/-- C10: when a record set contains both an unparseable (non-null) timestamp
and a null required field, `validate_data` fails with the timestamp-parse
error: the `pd.to_datetime` conversion on line 33 runs before the null check
on line 37, so the parse error takes precedence. -/
theorem validate_data_parse_precedence (df : List RawRecord)
    (h1 : ∃ r ∈ df, ∃ s, r.timestamp = RawTS.invalid s)
    (h2 : ∃ r ∈ df, r.case_id = none ∨ r.activity = none ∨ r.timestamp = RawTS.null) :
    ∃ msg, validate_data df = .error (.timestampParse msg) := by
  rcases to_datetime_col_err df h1 with ⟨m, hm⟩
  exact ⟨m, by simp [validate_data, hm]⟩

/-- Witness for C10: one record with a null `case_id` and null timestamp, one
with an unparseable timestamp — the parse error wins. -/
theorem validate_data_parse_precedence_witness :
    ∃ msg, validate_data [⟨none, some "A", RawTS.null⟩,
      ⟨some "c", some "B", RawTS.invalid "zz"⟩] = .error (.timestampParse msg) :=
  validate_data_parse_precedence _
    ⟨⟨some "c", some "B", RawTS.invalid "zz"⟩, by simp, "zz", rfl⟩
    ⟨⟨none, some "A", RawTS.null⟩, by simp, Or.inl rfl⟩

/-- C8 (amended): `validate_data` is pure except for the in-place timestamp
conversion: when `pd.to_datetime` raises, the input is left unchanged; when
conversion succeeds and validation returns a frame, the input has been
mutated into exactly that frame; and any mutation only replaces the timestamp
column — the `case_id` and `activity` columns, the row count and the row
order are preserved. -/
theorem validate_data_inputAfter_spec (df : List RawRecord) :
    ((∃ msg, validate_data df = .error (.timestampParse msg)) →
      validate_data_inputAfter df = .raw df) ∧
    (∀ out, validate_data df = .ok out → validate_data_inputAfter df = .converted out) ∧
    (∀ conv, validate_data_inputAfter df = .converted conv →
      conv.map (fun r => (r.case_id, r.activity)) =
        df.map (fun r => (r.case_id, r.activity)) ∧
      conv.length = df.length) := by
  refine ⟨fun h => ?_, fun out h => ?_, fun conv h => ?_⟩
  · cases hcol : to_datetime_col df with
    | error m => simp [validate_data_inputAfter, hcol]
    | ok c =>
      rcases h with ⟨msg, hmsg⟩
      rw [validate_data, hcol] at hmsg
      by_cases hany : c.any hasNullField = true <;> simp [hany] at hmsg
  · cases hcol : to_datetime_col df with
    | error m => rw [validate_data, hcol] at h; cases h
    | ok c =>
      rw [validate_data, hcol] at h
      by_cases hany : c.any hasNullField = true <;> simp [hany] at h
      simp [validate_data_inputAfter, hcol, h]
  · cases hcol : to_datetime_col df with
    | error m => simp [validate_data_inputAfter, hcol] at h
    | ok c =>
      simp only [validate_data_inputAfter, hcol] at h
      cases h
      have hc := to_datetime_col_ok_eq hcol
      subst hc
      constructor
      · rw [List.map_map]
        rfl
      · rw [List.length_map]

/-- Witness for C8: the mutation contract evaluated on a one-row frame that
converts successfully and on a one-row frame whose timestamp fails to
parse. -/
theorem validate_data_inputAfter_spec_witness :
    validate_data_inputAfter [⟨some "c", some "A", RawTS.valid 3⟩] =
      .converted [⟨some "c", some "A", some 3⟩] ∧
    validate_data_inputAfter [⟨some "c", some "A", RawTS.invalid "zz"⟩] =
      .raw [⟨some "c", some "A", RawTS.invalid "zz"⟩] := by
  constructor
  · exact (validate_data_inputAfter_spec _).2.1 _ (by decide)
  · exact (validate_data_inputAfter_spec _).1 ⟨"zz", by decide⟩

/-! ### Generic membership lemmas -/

theorem mem_uniqFirst {α : Type _} [DecidableEq α] {a : α} :
    ∀ l : List α, a ∈ uniqFirst l ↔ a ∈ l
  | [] => Iff.rfl
  | b :: l => by
    by_cases hab : a = b
    · subst hab
      simp [uniqFirst]
    · simp [uniqFirst, hab, mem_uniqFirst l]

theorem nodup_uniqFirst {α : Type _} [DecidableEq α] : ∀ l : List α, (uniqFirst l).Nodup
  | [] => List.nodup_nil
  | a :: l => by
    simp only [uniqFirst, List.nodup_cons]
    refine ⟨fun hmem => ?_, (nodup_uniqFirst l).filter _⟩
    have := (List.mem_filter.mp hmem).2
    simp at this

/-! ### Loop detection: C7 -/

theorem mem_pairKeys {log : List Event} {p : String × String} :
    p ∈ pairKeys log ↔ p ∈ log.map (fun e => (e.case_id, e.activity)) := by
  unfold pairKeys
  rw [List.mem_insertionSort, mem_uniqFirst]

theorem mem_loopPairs {log : List Event} {c a : String} :
    (c, a) ∈ loopPairs log ↔ 1 < countPair log c a := by
  unfold loopPairs
  rw [List.mem_filter]
  constructor
  · rintro ⟨-, h⟩
    simpa using h
  · intro h
    refine ⟨?_, by simpa using h⟩
    have hpos : 0 < countPair log c a := Nat.lt_of_lt_of_le Nat.zero_lt_one h.le
    unfold countPair at hpos
    rw [List.length_pos] at hpos
    rcases List.exists_mem_of_ne_nil _ hpos with ⟨e, he⟩
    rcases List.mem_filter.mp he with ⟨helog, hepred⟩
    simp only [Bool.and_eq_true, decide_eq_true_eq] at hepred
    rw [mem_pairKeys]
    exact List.mem_map.mpr ⟨e, helog, by simp [hepred.1, hepred.2]⟩

/-- C7: the loop report contains exactly the cases in which some activity
occurs more than once; each such case is mapped to the set of activities that
occur more than once in it (as distinct values, not counts); and the report
is empty when no activity repeats within any case. -/
theorem detect_loops_spec (log : List Event) :
    (∀ c as, (c, as) ∈ detect_loops log → ∀ a, (a ∈ as ↔ 1 < countPair log c a)) ∧
    (∀ c, (∃ as, (c, as) ∈ detect_loops log) ↔ ∃ a, 1 < countPair log c a) ∧
    ((∀ p ∈ log.map (fun e => (e.case_id, e.activity)), countPair log p.1 p.2 ≤ 1) →
      detect_loops log = []) := by
  refine ⟨fun c as hmem a => ?_, fun c => ⟨fun h => ?_, fun h => ?_⟩, fun h => ?_⟩
  · rcases List.mem_map.mp hmem with ⟨c0, hc0, heq⟩
    injection heq with h1 h2
    subst h1
    subst h2
    simp only [List.mem_map, List.mem_filter, decide_eq_true_eq]
    constructor
    · rintro ⟨p, ⟨hp, hpc⟩, rfl⟩
      have hp2 : (p.1, p.2) ∈ loopPairs log := by simpa using hp
      rw [hpc] at hp2
      exact mem_loopPairs.mp hp2
    · intro hcount
      exact ⟨(c0, a), ⟨mem_loopPairs.mpr hcount, rfl⟩, rfl⟩
  · rcases h with ⟨as, hmem⟩
    rcases List.mem_map.mp hmem with ⟨c0, hc0, heq⟩
    injection heq with h1 h2
    subst h1
    rcases List.mem_map.mp ((mem_uniqFirst _).mp hc0) with ⟨p, hp, hpc⟩
    have hp2 : (p.1, p.2) ∈ loopPairs log := by simpa using hp
    rw [hpc] at hp2
    exact ⟨p.2, mem_loopPairs.mp hp2⟩
  · rcases h with ⟨a, ha⟩
    have hmem : (c, a) ∈ loopPairs log := mem_loopPairs.mpr ha
    have hc : c ∈ uniqFirst ((loopPairs log).map (fun p => p.1)) :=
      (mem_uniqFirst _).mpr (List.mem_map.mpr ⟨(c, a), hmem, rfl⟩)
    exact ⟨_, List.mem_map_of_mem _ hc⟩
  · have hlp : loopPairs log = [] := by
      unfold loopPairs
      rw [List.filter_eq_nil_iff]
      intro p hp
      have := h p (mem_pairKeys.mp hp)
      simp
      omega
    unfold detect_loops
    rw [hlp]
    rfl

/-- Witness for C7, on the log with case `c1` = (Start, Review, Review,
Approve) — so `Review` repeats — and case `c2` = (Start, End), and on a
repetition-free log. -/
theorem detect_loops_spec_witness :
    ("Review" ∈ ["Review"] ↔
      1 < countPair [⟨"c1", "Start", 0⟩, ⟨"c1", "Review", 60⟩, ⟨"c1", "Review", 120⟩,
        ⟨"c1", "Approve", 180⟩, ⟨"c2", "Start", 0⟩, ⟨"c2", "End", 50⟩] "c1" "Review") ∧
    (∃ a, 1 < countPair [⟨"c1", "Start", 0⟩, ⟨"c1", "Review", 60⟩, ⟨"c1", "Review", 120⟩,
        ⟨"c1", "Approve", 180⟩, ⟨"c2", "Start", 0⟩, ⟨"c2", "End", 50⟩] "c1" a) ∧
    detect_loops [⟨"c2", "Start", 0⟩, ⟨"c2", "End", 50⟩] = [] := by
  refine ⟨(detect_loops_spec _).1 "c1" ["Review"] (by decide) "Review",
    ((detect_loops_spec _).2.1 "c1").mp ⟨["Review"], by decide⟩,
    (detect_loops_spec _).2.2 (by decide)⟩

/-! ### Bottleneck analysis: structure of the diff column -/

theorem length_diffCol : ∀ (pre rest : List Event), (diffCol pre rest).length = rest.length
  | _, [] => rfl
  | pre, e :: rest => by simp [diffCol, length_diffCol (pre ++ [e]) rest]

theorem diffCol_append (pre : List Event) :
    ∀ (xs ys : List Event), diffCol pre (xs ++ ys) = diffCol pre xs ++ diffCol (pre ++ xs) ys := by
  intro xs
  induction xs generalizing pre with
  | nil => simp [diffCol]
  | cons x xs ih =>
    intro ys
    simp only [List.cons_append, diffCol, List.append_eq]
    rw [ih (pre ++ [x]) ys]
    congr 2
    simp

theorem diffRow_of_no_prior {pre : List Event} {e : Event}
    (h : ∀ f ∈ pre, f.case_id ≠ e.case_id) : diffRow pre e = none := by
  have hfil : pre.filter (fun f => decide (f.case_id = e.case_id)) = [] := by
    rw [List.filter_eq_nil_iff]
    intro f hf
    simpa using h f hf
  simp [diffRow, hfil]

theorem diffRow_middle (p1 p2 : List Event) (x e : Event) (hx : x.case_id ≠ e.case_id) :
    diffRow (p1 ++ x :: p2) e = diffRow (p1 ++ p2) e := by
  unfold diffRow
  rw [List.filter_append, List.filter_append, List.filter_cons]
  simp [hx]

theorem diffCol_middle : ∀ (rest p1 p2 : List Event) (x : Event),
    (∀ f ∈ rest, f.case_id ≠ x.case_id) →
    diffCol (p1 ++ x :: p2) rest = diffCol (p1 ++ p2) rest
  | [], _, _, _, _ => rfl
  | f :: rest, p1, p2, x, h => by
    have hf : x.case_id ≠ f.case_id := fun hc => h f (by simp) hc.symm
    have hrec := diffCol_middle rest p1 (p2 ++ [f]) x (fun g hg => h g (by simp [hg]))
    simp only [diffCol, diffRow_middle p1 p2 x f hf]
    rw [show (p1 ++ x :: p2) ++ [f] = p1 ++ x :: (p2 ++ [f]) by simp,
      show (p1 ++ p2) ++ [f] = p1 ++ (p2 ++ [f]) by simp, hrec]

theorem mem_zip_diffCol : ∀ {rest : List Event} {pre : List Event} {e : Event} {d : Option Int},
    (e, d) ∈ rest.zip (diffCol pre rest) →
    ∃ l₁ l₂, rest = l₁ ++ e :: l₂ ∧ d = diffRow (pre ++ l₁) e := by
  intro rest
  induction rest with
  | nil => simp [diffCol]
  | cons x xs ih =>
    intro pre e d h
    rw [diffCol, List.zip_cons_cons] at h
    rcases List.mem_cons.mp h with heq | htail
    · injection heq with h1 h2
      subst h1
      subst h2
      exact ⟨[], xs, rfl, by simp⟩
    · rcases ih htail with ⟨l₁, l₂, rfl, hd⟩
      refine ⟨x :: l₁, l₂, rfl, ?_⟩
      rw [hd]
      congr 1
      simp

/-- C6 (amended): an activity that is always the first event of its case is
*not* omitted from the bottleneck table: it appears as a key with an
undefined (NaN) average — not a zero average.  And a single event whose case
has no other events contributes no gap to any activity's average: removing it
from the log leaves every activity's averaged gap list unchanged. -/
theorem detect_bottlenecks_edge_spec (log : List Event) :
    (∀ a, a ∈ log.map (fun e => e.activity) →
      (∀ l₁ e l₂, log = l₁ ++ e :: l₂ → e.activity = a →
        ∀ f ∈ l₁, f.case_id ≠ e.case_id) →
      (a, (none : Option ℚ)) ∈ detect_bottlenecks log) ∧
    (∀ l₁ l₂ e, log = l₁ ++ e :: l₂ →
      (∀ f ∈ l₁ ++ l₂, f.case_id ≠ e.case_id) →
      ∀ a, gapsOf log a = gapsOf (l₁ ++ l₂) a) := by
  constructor
  · intro a hocc hfirst
    have hgaps : gapsOf log a = [] := by
      unfold gapsOf
      rw [List.filterMap_eq_nil_iff]
      intro p hp
      rcases List.mem_filter.mp hp with ⟨hzip, hact⟩
      simp only [decide_eq_true_eq] at hact
      rcases @mem_zip_diffCol log [] p.1 p.2 (by exact hzip) with ⟨l₁, l₂, hsplit, hd⟩
      have hnone : p.2 = none := by
        rw [hd, List.nil_append]
        exact diffRow_of_no_prior (hfirst l₁ p.1 l₂ hsplit hact)
      rw [hnone]
      rfl
    have hkey : a ∈ sortedKeys (log.map (fun e => e.activity)) := by
      unfold sortedKeys
      rw [List.mem_insertionSort, mem_uniqFirst]
      exact hocc
    have hmm := List.mem_map_of_mem (fun x => (x, meanOpt (gapsOf log x))) hkey
    simpa [detect_bottlenecks, hgaps, meanOpt] using hmm
  · intro l₁ l₂ e hsplit hforeign a
    subst hsplit
    have h1 : ∀ f ∈ l₁, f.case_id ≠ e.case_id := fun f hf => hforeign f (by simp [hf])
    have h2 : ∀ f ∈ l₂, f.case_id ≠ e.case_id := fun f hf => hforeign f (by simp [hf])
    have hmid : diffCol (l₁ ++ [e]) l₂ = diffCol l₁ l₂ := by
      have := diffCol_middle l₂ l₁ [] e h2
      simpa using this
    have htd : time_diff_col (l₁ ++ e :: l₂) = diffCol [] l₁ ++ none :: diffCol l₁ l₂ := by
      unfold time_diff_col
      rw [diffCol_append, List.nil_append, diffCol, diffRow_of_no_prior h1, hmid]
    have htd2 : time_diff_col (l₁ ++ l₂) = diffCol [] l₁ ++ diffCol l₁ l₂ := by
      unfold time_diff_col
      rw [diffCol_append, List.nil_append]
    have hlen : l₁.length = (diffCol [] l₁).length := (length_diffCol [] l₁).symm
    unfold gapsOf
    rw [htd, htd2, List.zip_append hlen, List.zip_append hlen, List.zip_cons_cons,
      List.filter_append, List.filter_append, List.filter_cons, List.filterMap_append,
      List.filterMap_append]
    by_cases hpred : e.activity = a
    · simp [hpred]
    · simp [hpred]

/-- Witness for C6: in the two-row log (`A` then `B`, one case) the
always-first activity `A` is reported with a NaN mean, and prepending a
single-event case `c2` to that log leaves the gap list of `B` unchanged. -/
theorem detect_bottlenecks_edge_spec_witness :
    ("A", (none : Option ℚ)) ∈ detect_bottlenecks [⟨"c1", "A", 0⟩, ⟨"c1", "B", 600⟩] ∧
    gapsOf [⟨"c2", "X", 5⟩, ⟨"c1", "A", 0⟩, ⟨"c1", "B", 600⟩] "B" =
      gapsOf [⟨"c1", "A", 0⟩, ⟨"c1", "B", 600⟩] "B" := by
  constructor
  · refine (detect_bottlenecks_edge_spec _).1 "A" (by decide) ?_
    intro l₁ e l₂ hsplit hact f hf
    cases l₁ with
    | nil => simp at hf
    | cons x l₁ =>
      cases l₁ with
      | nil =>
        rw [List.singleton_append] at hsplit
        injection hsplit with hx hrest
        injection hrest with he hl
        rw [← he] at hact
        exact absurd hact (by decide)
      | cons y l₁ =>
        have := congrArg List.length hsplit
        simp at this
  · exact (detect_bottlenecks_edge_spec _).2 [] [⟨"c1", "A", 0⟩, ⟨"c1", "B", 600⟩]
      ⟨"c2", "X", 5⟩ rfl (by decide) "B"

/-! ### Sequence extraction: C5

Order lemmas for the code-point string comparison and the stable row order,
then uniqueness of the per-case sorted event list. -/

theorem charsLt_cons {a b : Char} {as bs : List Char} :
    charsLt (a :: as) (b :: bs) = true ↔
      (a.toNat < b.toNat ∨ (a.toNat = b.toNat ∧ charsLt as bs = true)) := by
  simp only [charsLt]
  split_ifs with h1 h2
  · simp [h1]
  · constructor
    · intro h
      cases h
    · intro h
      rcases h with h | ⟨h, -⟩ <;> omega
  · have heq : a.toNat = b.toNat := by omega
    constructor
    · intro h
      exact Or.inr ⟨heq, h⟩
    · intro h
      rcases h with h | ⟨-, h⟩
      · exact absurd h h1
      · exact h

theorem charsLt_irrefl : ∀ l : List Char, charsLt l l = false
  | [] => rfl
  | a :: l => by simp [charsLt, charsLt_irrefl l]

theorem charsLt_trans : ∀ (a b c : List Char),
    charsLt a b = true → charsLt b c = true → charsLt a c = true := by
  intro a
  induction a with
  | nil =>
    intro b c hab hbc
    cases b with
    | nil => simp [charsLt] at hab
    | cons b0 bs =>
      cases c with
      | nil => simp [charsLt] at hbc
      | cons c0 cs => simp [charsLt]
  | cons a0 as ih =>
    intro b c hab hbc
    cases b with
    | nil => simp [charsLt] at hab
    | cons b0 bs =>
      cases c with
      | nil => simp [charsLt] at hbc
      | cons c0 cs =>
        rw [charsLt_cons] at hab hbc ⊢
        rcases hab with h1 | ⟨h1, h1r⟩ <;> rcases hbc with h2 | ⟨h2, h2r⟩
        · exact Or.inl (by omega)
        · exact Or.inl (by omega)
        · exact Or.inl (by omega)
        · exact Or.inr ⟨by omega, ih bs cs h1r h2r⟩

theorem char_toNat_inj {a b : Char} (h : a.toNat = b.toNat) : a = b :=
  Char.ext (UInt32.toNat.inj h)

theorem charsLt_connex : ∀ (a b : List Char),
    charsLt a b = false → charsLt b a = false → a = b := by
  intro a
  induction a with
  | nil =>
    intro b h1 _
    cases b with
    | nil => rfl
    | cons b0 bs => simp [charsLt] at h1
  | cons a0 as ih =>
    intro b h1 h2
    cases b with
    | nil => simp [charsLt] at h2
    | cons b0 bs =>
      have h1' : ¬ (a0.toNat < b0.toNat ∨ (a0.toNat = b0.toNat ∧ charsLt as bs = true)) := by
        rw [← charsLt_cons, h1]
        simp
      have h2' : ¬ (b0.toNat < a0.toNat ∨ (b0.toNat = a0.toNat ∧ charsLt bs as = true)) := by
        rw [← charsLt_cons, h2]
        simp
      have hnl1 : ¬ a0.toNat < b0.toNat := fun h => h1' (Or.inl h)
      have hnl2 : ¬ b0.toNat < a0.toNat := fun h => h2' (Or.inl h)
      have heq : a0.toNat = b0.toNat := by omega
      have hr1 : charsLt as bs = false := by
        cases hcb : charsLt as bs
        · rfl
        · exact absurd (Or.inr ⟨heq, hcb⟩) h1'
      have hr2 : charsLt bs as = false := by
        cases hcb : charsLt bs as
        · rfl
        · exact absurd (Or.inr ⟨heq.symm, hcb⟩) h2'
      rw [char_toNat_inj heq, ih bs hr1 hr2]

theorem str_ext {a b : String} (h : a.data = b.data) : a = b := by
  cases a
  cases b
  exact congrArg String.mk h

theorem rowLE_total : ∀ p q : Nat × Event, rowLE p q ∨ rowLE q p := by
  intro p q
  unfold rowLE strLt
  cases hab : charsLt p.2.case_id.data q.2.case_id.data
  · cases hba : charsLt q.2.case_id.data p.2.case_id.data
    · have hcc : p.2.case_id = q.2.case_id := str_ext (charsLt_connex _ _ hab hba)
      rcases lt_trichotomy p.2.timestamp q.2.timestamp with h | h | h
      · exact Or.inl (Or.inr ⟨hcc, Or.inl h⟩)
      · rcases Nat.le_total p.1 q.1 with h2 | h2
        · exact Or.inl (Or.inr ⟨hcc, Or.inr ⟨h, h2⟩⟩)
        · exact Or.inr (Or.inr ⟨hcc.symm, Or.inr ⟨h.symm, h2⟩⟩)
      · exact Or.inr (Or.inr ⟨hcc.symm, Or.inl h⟩)
    · exact Or.inr (Or.inl rfl)
  · exact Or.inl (Or.inl rfl)

theorem rowLE_trans : ∀ p q r : Nat × Event, rowLE p q → rowLE q r → rowLE p r := by
  intro p q r hpq hqr
  unfold rowLE strLt at hpq hqr ⊢
  rcases hpq with h1 | ⟨hc1, h1⟩
  · rcases hqr with h2 | ⟨hc2, h2⟩
    · exact Or.inl (charsLt_trans _ _ _ h1 h2)
    · refine Or.inl ?_
      rw [← hc2]
      exact h1
  · rcases hqr with h2 | ⟨hc2, h2⟩
    · refine Or.inl ?_
      rw [hc1]
      exact h2
    · refine Or.inr ⟨hc1.trans hc2, ?_⟩
      omega

theorem tsOrd_antisymm : ∀ e f : Event, tsOrd e f → tsOrd f e → e = f := by
  intro e f h1 h2
  rcases h1 with h1 | h1
  · rcases h2 with h2 | h2
    · exact absurd h2 (by omega)
    · exact h2.symm
  · exact h1

theorem sortedLog_pairwise (lg : List Event) : (sortedLog lg).Pairwise rowLE := by
  haveI : IsTotal (Nat × Event) rowLE := ⟨rowLE_total⟩
  haveI : IsTrans (Nat × Event) rowLE := ⟨fun a b c => rowLE_trans a b c⟩
  exact List.sorted_insertionSort rowLE lg.enum

theorem sortedLog_perm (lg : List Event) : List.Perm (sortedLog lg) lg.enum :=
  List.perm_insertionSort rowLE lg.enum

theorem sortedLog_idx_nodup (lg : List Event) :
    (sortedLog lg).Pairwise (fun p q => p.1 ≠ q.1) := by
  have h1 : (lg.enum.map Prod.fst).Nodup := List.nodup_enum_map_fst lg
  have h2 := List.pairwise_map.mp h1
  exact (List.Perm.pairwise_iff (fun h => Ne.symm h) (sortedLog_perm lg)).mpr h2

theorem caseEventsIdx_strict (lg : List Event) (c : String) :
    (caseEventsIdx lg c).Pairwise (fun p q =>
      p.2.timestamp < q.2.timestamp ∨ (p.2.timestamp = q.2.timestamp ∧ p.1 < q.1)) := by
  have hsub : List.Sublist (caseEventsIdx lg c) (sortedLog lg) := List.filter_sublist _
  have h1 : (caseEventsIdx lg c).Pairwise rowLE := (sortedLog_pairwise lg).sublist hsub
  have h2 : (caseEventsIdx lg c).Pairwise (fun p q => p.1 ≠ q.1) :=
    (sortedLog_idx_nodup lg).sublist hsub
  refine (h1.and h2).imp_of_mem ?_
  intro p q hp hq hpq
  have hpc : p.2.case_id = c := by simpa using (List.mem_filter.mp hp).2
  have hqc : q.2.case_id = c := by simpa using (List.mem_filter.mp hq).2
  rcases hpq.1 with h | ⟨-, h⟩
  · unfold strLt at h
    rw [hpc, hqc, charsLt_irrefl] at h
    exact Bool.noConfusion h
  · rcases h with h | ⟨ht, hi⟩
    · exact Or.inl h
    · exact Or.inr ⟨ht, lt_of_le_of_ne hi hpq.2⟩

theorem caseEvents_perm (lg : List Event) (c : String) :
    List.Perm ((caseEventsIdx lg c).map (fun p => p.2))
      (lg.filter (fun e => decide (e.case_id = c))) := by
  have h1 : List.Perm (caseEventsIdx lg c)
      (lg.enum.filter (fun p => decide (p.2.case_id = c))) :=
    (sortedLog_perm lg).filter _
  have h2 := h1.map (fun p : Nat × Event => p.2)
  have h5 : lg.enum.map (fun p : Nat × Event => p.2) = lg := List.enumFrom_map_snd 0 lg
  have hcomm : ∀ l : List (Nat × Event),
      (l.filter (fun p => decide (p.2.case_id = c))).map (fun p : Nat × Event => p.2) =
        (l.map (fun p : Nat × Event => p.2)).filter (fun e => decide (e.case_id = c)) := by
    intro l
    induction l with
    | nil => rfl
    | cons x xs ih =>
      by_cases hx : x.2.case_id = c <;> simp [List.filter_cons, hx, ih]
  rw [hcomm lg.enum, h5] at h2
  exact h2

theorem caseEvents_sorted (lg : List Event) (c : String)
    (hdist : (lg.filter (fun e => decide (e.case_id = c))).Pairwise
      (fun e f => e.timestamp ≠ f.timestamp)) :
    ((caseEventsIdx lg c).map (fun p => p.2)).Pairwise tsOrd := by
  have h1 : ((caseEventsIdx lg c).map (fun p => p.2)).Pairwise
      (fun e f => e.timestamp < f.timestamp ∨ e.timestamp = f.timestamp) := by
    refine List.pairwise_map.mpr ((caseEventsIdx_strict lg c).imp ?_)
    intro p q h
    rcases h with h | ⟨h, -⟩
    · exact Or.inl h
    · exact Or.inr h
  have h2 : ((caseEventsIdx lg c).map (fun p => p.2)).Pairwise
      (fun e f => e.timestamp ≠ f.timestamp) :=
    (List.Perm.pairwise_iff (fun h => Ne.symm h) (caseEvents_perm lg c)).mpr hdist
  refine (h1.and h2).imp ?_
  intro e f h
  rcases h.1 with h1 | h1
  · exact Or.inl h1
  · exact absurd h1 h.2

/-- C5: the extracted sequence of a case is its events stable-sorted by
timestamp — the case's rows of the sorted frame are a permutation of the
case's original rows and are ordered by timestamp with ties broken by
original row position; extraction is deterministic (re-running it on the same
input is the identical tuple); and when the timestamps of the case's events
are pairwise distinct, permuting the input rows does not change the extracted
sequence. -/
theorem extract_sequences_spec (log : List Event) (c : String) :
    List.Perm (caseEventsIdx log c) (log.enum.filter (fun p => decide (p.2.case_id = c))) ∧
    (caseEventsIdx log c).Pairwise (fun p q =>
      p.2.timestamp < q.2.timestamp ∨ (p.2.timestamp = q.2.timestamp ∧ p.1 < q.1)) ∧
    caseSeq log c = caseSeq log c ∧
    (∀ log2, List.Perm log2 log →
      (log.filter (fun e => decide (e.case_id = c))).Pairwise
        (fun e f => e.timestamp ≠ f.timestamp) →
      caseSeq log2 c = caseSeq log c) := by
  refine ⟨(sortedLog_perm log).filter _, caseEventsIdx_strict log c, rfl, ?_⟩
  intro log2 hperm hdist
  haveI : IsAntisymm Event tsOrd := ⟨tsOrd_antisymm⟩
  have hdist2 : (log2.filter (fun e => decide (e.case_id = c))).Pairwise
      (fun e f => e.timestamp ≠ f.timestamp) :=
    (List.Perm.pairwise_iff (fun h => Ne.symm h) (hperm.filter _)).mpr hdist
  have hs2 := caseEvents_sorted log2 c hdist2
  have hs1 := caseEvents_sorted log c hdist
  have hp : List.Perm ((caseEventsIdx log2 c).map (fun p => p.2))
      ((caseEventsIdx log c).map (fun p => p.2)) :=
    ((caseEvents_perm log2 c).trans (hperm.filter _)).trans (caseEvents_perm log c).symm
  have heq : (caseEventsIdx log2 c).map (fun p => p.2) =
      (caseEventsIdx log c).map (fun p => p.2) :=
    List.eq_of_perm_of_sorted hp hs2 hs1
  unfold caseSeq
  rw [show (fun p : Nat × Event => p.2.activity) =
      (fun e : Event => e.activity) ∘ (fun p : Nat × Event => p.2) from rfl,
    ← List.map_map, ← List.map_map, heq]

/-- Witness for C5: the case `c1` given out of order (`B` at 600 s before `A`
at 0 s) extracts the same sequence as the chronological presentation, since
the timestamps are distinct. -/
theorem extract_sequences_spec_witness :
    caseSeq [⟨"c1", "A", 0⟩, ⟨"c1", "B", 600⟩] "c1" =
      caseSeq [⟨"c1", "B", 600⟩, ⟨"c1", "A", 0⟩] "c1" :=
  (extract_sequences_spec [⟨"c1", "B", 600⟩, ⟨"c1", "A", 0⟩] "c1").2.2.2
    [⟨"c1", "A", 0⟩, ⟨"c1", "B", 600⟩] (by decide) (by decide)

end ProcessMining
